import Mathlib

/-!
Shallow embedding of `src/algorithms/src/encryption/ecies_poseidon.rs`,
the ECIES-Poseidon hybrid encryption scheme.

Representation choices, all read off the source:

* A field element of `TE::BaseField` is represented by its canonical
  representative (`to_repr`): a natural number below the modulus `p`.
  `capacity` stands for `FieldParameters::CAPACITY`; the field guarantees
  `capacity < MODULUS_BITS`, whose arithmetic content `2 ^ capacity ≤ p`
  appears as a hypothesis of the theorems.
* The message codec (`encode_message` / `decode_message`) is embedded
  bit for bit.  The `unwrap()` on `from_repr` is modelled by `Option`
  (`none` = panic), and the unguarded `loop { if let Some(true) =
  bits.pop() { break } }` of `decode_message` is modelled by a
  fuel-indexed step function: `none` means the loop has not broken
  within `fuel` iterations (so `none` for every `fuel` means the Rust
  loop never terminates).
* The elliptic-curve collaborators (`to_x_coordinate`,
  `from_x_coordinate`, subgroup validation, scalar multiplication) and
  the Poseidon sponge are external to this file of the repository; they
  are modelled from the spec as parameters with their contracts stated
  as hypotheses (see `CurveModel` and `SpongeSpec`).
-/

namespace ECIES

/-- Little-endian bits of a natural number, `len` bits long.  This embeds
both the byte-to-bits loop of `encode_message` (push `byte & 1 == 1`,
then `byte >>= 1`, eight times) and the
`element.to_repr().to_bits_le()[..capacity]` of `decode_message` (the
first `capacity` little-endian bits of the canonical representative). -/
def toBitsLe : Nat → Nat → List Bool
  | _, 0 => []
  | x, len + 1 => (x % 2 == 1) :: toBitsLe (x / 2) len

/-- Embeds `BigInteger::from_bits_le`: a little-endian bit vector read as
a natural number. -/
def fromBitsLe (l : List Bool) : Nat :=
  l.foldr (fun b acc => 2 * acc + (if b then 1 else 0)) 0

/-- Embeds Rust `slice::chunks n`: consecutive chunks of size `n`, the
last one possibly shorter.  The source only calls it with
`n = capacity ≥ 1`. -/
def chunksOf (n : Nat) : List Bool → List (List Bool)
  | [] => []
  | x :: xs => (x :: xs.take (n - 1)) :: chunksOf n (xs.drop (n - 1))
termination_by l => l.length
decreasing_by simp; omega

/-- Embeds Rust `slice::chunks_exact n`: only the complete chunks of
size `n`; a trailing remainder is dropped. -/
def chunksExact (n : Nat) (l : List Bool) : List (List Bool) :=
  if h : 0 < n ∧ n ≤ l.length then l.take n :: chunksExact n (l.drop n) else []
termination_by l.length
decreasing_by simp; omega

/-- Embeds `PrimeField::from_repr`: succeeds exactly on canonical
representatives, i.e. naturals below the modulus `p`. -/
def from_repr (p x : Nat) : Option Nat :=
  if x < p then some x else none

/-- Embeds the `.map(|chunk| from_repr(..).unwrap()).collect()` of
`encode_message`; `none` models a panic of the `unwrap`. -/
def collectChunks (p : Nat) : List (List Bool) → Option (List Nat)
  | [] => some []
  | chunk :: rest =>
      (from_repr p (fromBitsLe chunk)).bind fun v =>
        (collectChunks p rest).map fun vs => v :: vs

/-- The plaintext bit expansion built by `encode_message` before the
terminator is appended: each byte little-endian, bytes in order. -/
def message_bits (message : List Nat) : List Bool :=
  (message.map fun byte => toBitsLe byte 8).flatten

/-- Embeds `encode_message`: expand the bytes to bits (little-endian in
each byte), append a single terminator `true` bit, chunk into `capacity`
bits, and map each chunk through `from_repr ∘ from_bits_le`.  The result
is `none` exactly when some `unwrap` would panic. -/
def encode_message (p capacity : Nat) (message : List Nat) : Option (List Nat) :=
  collectChunks p (chunksOf capacity (message_bits message ++ [true]))

/-- The error type of the source is `EncryptionError::Message(String)`;
the string payloads are dropped here. -/
inductive EncryptionError where
  | message : EncryptionError
deriving DecidableEq

/-- Embeds the terminator-stripping loop of `decode_message`:
`loop { if let Some(true) = bits.pop() { break } }`.  One unit of fuel is
one loop iteration; `Vec::pop` is `getLast?` plus `dropLast`, and a pop
on the empty vector returns `None` and leaves it empty, so on a vector
without a `true` bit the loop runs forever — rendered as `none` for
every fuel. -/
def popLoop : Nat → List Bool → Option (List Bool)
  | 0, _ => none
  | fuel + 1, bits =>
      match bits.getLast? with
      | some true => some bits.dropLast
      | some false => popLoop fuel bits.dropLast
      | none => popLoop fuel bits

/-- Embeds the byte-reassembly of one 8-bit chunk in `decode_message`:
iterate the chunk reversed, `byte <<= 1; byte += bit`. -/
def byteFromBits (chunk : List Bool) : Nat :=
  chunk.reverse.foldl (fun byte bit => 2 * byte + (if bit then 1 else 0)) 0

/-- Embeds `decode_message`: keep the first `capacity` little-endian bits
of each element, concatenate, strip trailing zeros and the terminator
with the pop loop (fuel-indexed; `none` = the loop has not terminated),
fail if the remaining bit count is not a multiple of 8, and regroup the
bits into bytes. -/
def decode_message (capacity fuel : Nat) (encoded_message : List Nat) :
    Option (Except EncryptionError (List Nat)) :=
  let bits := (encoded_message.map fun element => toBitsLe element capacity).flatten
  match popLoop fuel bits with
  | none => none
  | some bits =>
      if bits.length % 8 ≠ 0 then some (Except.error EncryptionError.message)
      else some (Except.ok ((chunksExact 8 bits).map byteFromBits))

/-- Modelled from the spec: the external twisted-Edwards collaborators of
`snarkvm_curves` used by key agreement — `to_x_coordinate`,
`from_x_coordinate` with its sign-convention flag, and
`is_in_correct_subgroup_assuming_on_curve`.  The group of points is an
abstract monoid written multiplicatively, following the spec's
`generator^sk` notation; `mul_bits` over the big-endian scalar bits is
scalar exponentiation `· ^ ·` (§4.2: stripping leading zero bits "must
not change the result"), and `batch_normalization` plus `into_affine`
is semantically the identity (§4.2: "semantically equivalent to
normalizing each independently"). -/
structure CurveModel (G F : Type) where
  xCoord : G → F
  fromX : F → Bool → Option G
  inSubgroup : G → Bool

/-- Embeds `generate_public_key`: scalar-multiply the fixed generator by
the private key. -/
def generate_public_key {G : Type} [Monoid G] (generator : G) (private_key : Nat) : G :=
  generator ^ private_key

/-- Embeds `generate_asymmetric_key` with the sampled randomness `r`
made explicit: returns `(r, x(G^r), x(pk^r))`. -/
def generate_asymmetric_key {G F : Type} [Monoid G] (C : CurveModel G F)
    (generator public_key : G) (randomness : Nat) : Nat × F × F :=
  (randomness, C.xCoord (generator ^ randomness), C.xCoord (public_key ^ randomness))

/-- Embeds the x-coordinate recovery shared by
`ECIESPoseidonPublicKey::read_le` and `generate_symmetric_key`: try the
`true` sign convention first, accept the candidate only if it exists and
is in the prime-order subgroup, otherwise try the `false` convention
under the same condition. -/
def recover_randomizer {G F : Type} (C : CurveModel G F) (x : F) : Option G :=
  match (match C.fromX x true with
         | some element => if C.inSubgroup element then some element else none
         | none => none) with
  | some element => some element
  | none =>
      match C.fromX x false with
      | some element => if C.inSubgroup element then some element else none
      | none => none

/-- Embeds `generate_symmetric_key`: recover the randomizer point from
its x-coordinate, and on success return `x(randomizer^private_key)`;
on failure return `none`. -/
def generate_symmetric_key {G F : Type} [Monoid G] (C : CurveModel G F)
    (private_key : Nat) (ciphertext_randomizer : F) : Option F :=
  (recover_randomizer C ciphertext_randomizer).map fun randomizer =>
    C.xCoord (randomizer ^ private_key)

/-- Embeds `ECIESPoseidonPublicKey::read_le` after the x-coordinate has
been deserialized: the same two-convention recovery, with failure
surfaced as the typed `EncryptionError`. -/
def read_le {G F : Type} (C : CurveModel G F) (x_coordinate : F) : Except EncryptionError G :=
  match recover_randomizer C x_coordinate with
  | some element => Except.ok element
  | none => Except.error EncryptionError.message

/-- Modelled from the spec: the external Poseidon sponge collaborator
(§6: `new(parameters)`, `absorb(elements)`, `squeeze(count)`).  A fresh
sponge's output stream is a deterministic function of the absorbed
sequence, and `squeeze count` returns exactly `count` elements. -/
structure SpongeSpec (F : Type) where
  squeezeFn : List F → Nat → List F
  length_squeezeFn : ∀ s n, (squeezeFn s n).length = n

/-- State of one sponge instance: the sequence absorbed so far. -/
structure Sponge (F : Type) where
  absorbed : List F

/-- Embeds `PoseidonSponge::with_parameters`: a fresh sponge. -/
def Sponge.with_parameters (F : Type) : Sponge F := ⟨[]⟩

/-- Embeds `sponge.absorb(elements)`. -/
def Sponge.absorb {F : Type} (sponge : Sponge F) (input : List F) : Sponge F :=
  ⟨sponge.absorbed ++ input⟩

/-- Embeds `sponge.squeeze(count)` under a `SpongeSpec`. -/
def Sponge.squeeze {F : Type} (S : SpongeSpec F) (sponge : Sponge F) (count : Nat) : List F :=
  S.squeezeFn sponge.absorbed count

/-- Embeds `generate_symmetric_key_commitment`: fresh sponge, absorb the
commitment domain tag then the symmetric key, squeeze one element and
return it.  The `[0]` indexing is modelled by `head?` (`none` = panic on
an empty squeeze). -/
def generate_symmetric_key_commitment {F : Type} (S : SpongeSpec F)
    (commitment_domain symmetric_key : F) : Option F :=
  let sponge := Sponge.with_parameters F
  let sponge := sponge.absorb [commitment_domain, symmetric_key]
  (sponge.squeeze S 1).head?

/-- Embeds `Itertools::zip_eq`, which panics (`none`) when the two
sequences have different lengths. -/
def zipEq {α β : Type} : List α → List β → Option (List (α × β))
  | [], [] => some []
  | a :: as, b :: bs => (zipEq as bs).map fun rest => (a, b) :: rest
  | [], _ :: _ => none
  | _ :: _, [] => none

/-- Embeds `encrypt`: fresh sponge, absorb the encryption domain tag
then the symmetric key, squeeze one keystream element per message
element, and add the keystream elementwise. -/
def encrypt {F : Type} [AddCommGroup F] (S : SpongeSpec F)
    (encryption_domain symmetric_key : F) (message : List F) : Option (List F) :=
  let sponge := (Sponge.with_parameters F).absorb [encryption_domain, symmetric_key]
  let sponge_randomizers := sponge.squeeze S message.length
  (zipEq message sponge_randomizers).map (List.map fun pr => pr.1 + pr.2)

/-- Embeds `decrypt`: identical keystream derivation, elementwise
subtraction. -/
def decrypt {F : Type} [AddCommGroup F] (S : SpongeSpec F)
    (encryption_domain symmetric_key : F) (ciphertext : List F) : Option (List F) :=
  let sponge := (Sponge.with_parameters F).absorb [encryption_domain, symmetric_key]
  let sponge_randomizers := sponge.squeeze S ciphertext.length
  (zipEq ciphertext sponge_randomizers).map (List.map fun pr => pr.1 - pr.2)

/-- Concrete curve instance used by the witnesses: the group is
`Multiplicative (ZMod 5)`, the x-coordinate map is the identity
transport, decoding under the `true` convention inverts it, and every
point counts as a subgroup member. -/
def witnessCurve : CurveModel (Multiplicative (ZMod 5)) (ZMod 5) where
  xCoord := fun P => Multiplicative.toAdd P
  fromX := fun x s => if s then some (Multiplicative.ofAdd x) else none
  inSubgroup := fun _ => true

/-- Concrete curve instance whose decoding always fails, used by the
witnesses for the failure path. -/
def witnessCurveFail : CurveModel (Multiplicative (ZMod 5)) (ZMod 5) where
  xCoord := fun P => Multiplicative.toAdd P
  fromX := fun _ _ => none
  inSubgroup := fun _ => true

/-- Concrete sponge instance used by the witnesses: squeezes zeros. -/
def witnessSponge : SpongeSpec (ZMod 7) where
  squeezeFn := fun _ n => List.replicate n 0
  length_squeezeFn := fun _ n => List.length_replicate n 0

/-! ### Bit-level lemmas -/

theorem fromBitsLe_nil : fromBitsLe [] = 0 := rfl

theorem fromBitsLe_cons (b : Bool) (t : List Bool) :
    fromBitsLe (b :: t) = 2 * fromBitsLe t + (if b then 1 else 0) := rfl

theorem length_toBitsLe (x len : Nat) : (toBitsLe x len).length = len := by
  induction len generalizing x with
  | zero => rfl
  | succ k ih => simp [toBitsLe, ih]

theorem fromBitsLe_lt (l : List Bool) : fromBitsLe l < 2 ^ l.length := by
  induction l with
  | nil => simp [fromBitsLe_nil]
  | cons b t ih =>
      rw [fromBitsLe_cons, List.length_cons, pow_succ]
      cases b <;> simp <;> omega

theorem toBitsLe_zero (len : Nat) : toBitsLe 0 len = List.replicate len false := by
  induction len with
  | zero => rfl
  | succ k ih => simp [toBitsLe, ih, List.replicate_succ]

theorem toBitsLe_fromBitsLe (l : List Bool) : ∀ len, l.length ≤ len →
    toBitsLe (fromBitsLe l) len = l ++ List.replicate (len - l.length) false := by
  induction l with
  | nil => intro len _; simp [fromBitsLe_nil, toBitsLe_zero]
  | cons b t ih =>
      intro len hlen
      cases len with
      | zero => simp at hlen
      | succ m =>
          rw [fromBitsLe_cons, toBitsLe]
          have hmod : (2 * fromBitsLe t + (if b then 1 else 0)) % 2 = (if b then 1 else 0) := by
            cases b <;> simp <;> omega
          have hdiv : (2 * fromBitsLe t + (if b then 1 else 0)) / 2 = fromBitsLe t := by
            cases b <;> simp <;> omega
          rw [hmod, hdiv, ih m (by simpa using hlen)]
          cases b <;> simp [List.length_cons, Nat.succ_sub_succ]

theorem fromBitsLe_toBitsLe (len : Nat) : ∀ x, fromBitsLe (toBitsLe x len) = x % 2 ^ len := by
  induction len with
  | zero => intro x; simp [toBitsLe, fromBitsLe_nil, Nat.mod_one]
  | succ m ih =>
      intro x
      rw [toBitsLe, fromBitsLe_cons, ih, pow_succ']
      have key : x % (2 * 2 ^ m) % 2 = x % 2 := Nat.mod_mod_of_dvd x ⟨2 ^ m, rfl⟩
      rw [← Nat.mod_mul_right_div_self]
      rcases Nat.mod_two_eq_zero_or_one x with h | h <;> rw [h] <;> simp <;> omega

theorem byteFromBits_eq (chunk : List Bool) : byteFromBits chunk = fromBitsLe chunk := by
  rw [byteFromBits, List.foldl_reverse]
  rfl

theorem fromBitsLe_ne_zero (l : List Bool) (h : true ∈ l) : fromBitsLe l ≠ 0 := by
  induction l with
  | nil => simp at h
  | cons b t ih =>
      rw [fromBitsLe_cons]
      cases b with
      | true => simp
      | false =>
          have : true ∈ t := by simpa using h
          have := ih this
          omega

/-! ### Chunking lemmas -/

theorem chunksOf_rec {motive : List Bool → Prop} (n : Nat)
    (base : motive [])
    (step : ∀ (x : Bool) (xs : List Bool), motive (xs.drop (n - 1)) → motive (x :: xs)) :
    ∀ l, motive l
  | [] => base
  | x :: xs => step x xs (chunksOf_rec n base step (xs.drop (n - 1)))
termination_by l => l.length
decreasing_by simp; omega

theorem chunksOf_cons (n : Nat) (x : Bool) (xs : List Bool) :
    chunksOf n (x :: xs) = (x :: xs.take (n - 1)) :: chunksOf n (xs.drop (n - 1)) := by
  rw [chunksOf]

theorem chunksOf_chunk_spec (n : Nat) (hn : 0 < n) :
    ∀ l, ∀ c ∈ chunksOf n l, c.length ≤ n ∧ c ≠ [] := by
  refine chunksOf_rec n ?_ ?_
  · intro c hc
    simp [chunksOf] at hc
  · intro x xs ih c hc
    rw [chunksOf_cons] at hc
    rcases List.mem_cons.mp hc with h | h
    · subst h
      refine ⟨?_, by simp⟩
      simp [List.length_take]
      omega
    · exact ih c h

theorem chunksOf_flatten_padded (n : Nat) (hn : 0 < n) :
    ∀ l, l ≠ [] → ∃ m, m + 1 ≤ n ∧
      ((chunksOf n l).map fun c => toBitsLe (fromBitsLe c) n).flatten
        = l ++ List.replicate m false := by
  refine chunksOf_rec n ?_ ?_
  · intro h; exact absurd rfl h
  · intro x xs ih _
    rw [chunksOf_cons, List.map_cons, List.flatten_cons]
    have hc1len : (x :: xs.take (n - 1)).length ≤ n := by
      simp [List.length_take]; omega
    rw [toBitsLe_fromBitsLe _ n hc1len]
    rcases hxs : xs.drop (n - 1) with _ | ⟨y, ys⟩
    · have hlen : xs.length ≤ n - 1 := List.drop_eq_nil_iff.mp hxs
      have htake : xs.take (n - 1) = xs := List.take_of_length_le hlen
      refine ⟨n - (x :: xs).length, by simp; omega, ?_⟩
      rw [htake]
      simp [chunksOf]
    · have hne : xs.drop (n - 1) ≠ [] := by rw [hxs]; simp
      have hlen : n - 1 ≤ xs.length := by
        by_contra hcon
        exact hne (List.drop_eq_nil_iff.mpr (by omega))
      have hc1 : (x :: xs.take (n - 1)).length = n := by
        simp [List.length_take]; omega
      rcases ih hne with ⟨m, hm, hjoin⟩
      refine ⟨m, hm, ?_⟩
      rw [← hxs, hjoin, hc1, Nat.sub_self, List.replicate_zero, List.append_nil,
        ← List.append_assoc, List.cons_append, List.take_append_drop]

theorem getLast?_drop_of_ne_nil {α : Type} (l : List α) (k : Nat) (h : l.drop k ≠ []) :
    (l.drop k).getLast? = l.getLast? := by
  conv_rhs => rw [← List.take_append_drop k l]
  rw [List.getLast?_append]
  rcases hl : (l.drop k).getLast? with _ | a
  · exact absurd (List.getLast?_eq_none_iff.mp hl) h
  · rfl

theorem chunksOf_getLast_true (n : Nat) (hn : 0 < n) :
    ∀ l, l.getLast? = some true →
      ∃ c, (chunksOf n l).getLast? = some c ∧ c.getLast? = some true := by
  refine chunksOf_rec n ?_ ?_
  · intro h; simp at h
  · intro x xs ih hlast
    rcases hxs : xs.drop (n - 1) with _ | ⟨y, ys⟩
    · have hlen : xs.length ≤ n - 1 := List.drop_eq_nil_iff.mp hxs
      have htake : xs.take (n - 1) = xs := List.take_of_length_le hlen
      refine ⟨x :: xs, ?_, hlast⟩
      rw [chunksOf_cons, htake, hxs]
      simp [chunksOf]
    · have hne : xs.drop (n - 1) ≠ [] := by rw [hxs]; simp
      have hdlast : (xs.drop (n - 1)).getLast? = some true := by
        rw [getLast?_drop_of_ne_nil xs (n - 1) hne]
        rcases xs with _ | ⟨z, zs⟩
        · simp at hxs
        · rwa [List.getLast?_cons_cons] at hlast
      rcases ih hdlast with ⟨c, hc1, hc2⟩
      refine ⟨c, ?_, hc2⟩
      rw [chunksOf_cons, hxs, chunksOf_cons, List.getLast?_cons_cons]
      rw [hxs, chunksOf_cons] at hc1
      exact hc1

/-! ### Encoder lemmas -/

theorem collectChunks_eq_map (p : Nat) :
    ∀ cs : List (List Bool), (∀ c ∈ cs, fromBitsLe c < p) →
      collectChunks p cs = some (cs.map fromBitsLe) := by
  intro cs
  induction cs with
  | nil => intro _; rfl
  | cons c rest ih =>
      intro h
      have hc : fromBitsLe c < p := h c (List.mem_cons_self c rest)
      have hrest := ih fun d hd => h d (List.mem_cons_of_mem c hd)
      simp [collectChunks, from_repr, hc, hrest]

theorem encode_message_eq (p capacity : Nat) (message : List Nat)
    (hc : 0 < capacity) (hp : 2 ^ capacity ≤ p) :
    encode_message p capacity message
      = some ((chunksOf capacity (message_bits message ++ [true])).map fromBitsLe) := by
  rw [encode_message]
  refine collectChunks_eq_map p _ fun c hcmem => ?_
  rcases chunksOf_chunk_spec capacity hc _ c hcmem with ⟨hle, _⟩
  calc fromBitsLe c < 2 ^ c.length := fromBitsLe_lt c
    _ ≤ 2 ^ capacity := Nat.pow_le_pow_right (by omega) hle
    _ ≤ p := hp

theorem length_message_bits (message : List Nat) :
    (message_bits message).length = 8 * message.length := by
  induction message with
  | nil => rfl
  | cons b rest ih =>
      rw [message_bits] at ih ⊢
      simp [length_toBitsLe, ih]
      ring

/-! ### Pop-loop lemmas -/

theorem popLoop_append_terminator (m : Nat) :
    ∀ (fuel : Nat) (ys : List Bool), m + 1 ≤ fuel →
      popLoop fuel (ys ++ true :: List.replicate m false) = some ys := by
  induction m with
  | zero =>
      intro fuel ys hf
      cases fuel with
      | zero => omega
      | succ f =>
          simp [popLoop, List.getLast?_concat, List.dropLast_concat]
  | succ k ih =>
      intro fuel ys hf
      cases fuel with
      | zero => omega
      | succ f =>
          have hsplit : ys ++ true :: List.replicate (k + 1) false
              = (ys ++ true :: List.replicate k false) ++ [false] := by
            rw [List.replicate_succ']
            simp
          have h1 : ((ys ++ true :: List.replicate k false) ++ [false]).getLast? = some false :=
            List.getLast?_concat _
          have h2 : ((ys ++ true :: List.replicate k false) ++ [false]).dropLast
              = ys ++ true :: List.replicate k false := List.dropLast_concat
          rw [hsplit, popLoop, h1, h2]
          exact ih f ys (by omega)

theorem popLoop_no_true (fuel : Nat) :
    ∀ bits : List Bool, true ∉ bits → popLoop fuel bits = none := by
  induction fuel with
  | zero => intro bits _; rfl
  | succ f ih =>
      intro bits hb
      rcases hlast : bits.getLast? with _ | b
      · simp [popLoop, hlast]
        exact ih bits hb
      · have hmem : b ∈ bits := List.mem_of_getLast?_eq_some hlast
        cases b with
        | true => exact absurd hmem hb
        | false =>
            simp [popLoop, hlast]
            exact ih bits.dropLast fun h => hb (List.dropLast_subset bits h)

/-! ### Byte-regrouping lemmas -/

theorem chunksExact_nil : chunksExact 8 [] = [] := by
  rw [chunksExact]
  simp

theorem chunksExact_cons_block (c r : List Bool) (hc : c.length = 8) :
    chunksExact 8 (c ++ r) = c :: chunksExact 8 r := by
  rw [chunksExact]
  have hle : 8 ≤ (c ++ r).length := by simp [hc]
  rw [dif_pos ⟨by omega, hle⟩, List.take_left' hc, List.drop_left' hc]

theorem bytes_of_message_bits (message : List Nat) (h : ∀ b ∈ message, b < 256) :
    (chunksExact 8 (message_bits message)).map byteFromBits = message := by
  induction message with
  | nil => simp [message_bits, chunksExact_nil]
  | cons b rest ih =>
      have hb : b < 256 := h b (List.mem_cons_self b rest)
      have hrest := ih fun d hd => h d (List.mem_cons_of_mem b hd)
      have hflat : message_bits (b :: rest) = toBitsLe b 8 ++ message_bits rest := by
        rw [message_bits, message_bits, List.map_cons, List.flatten_cons]
      have h28 : (2 : Nat) ^ 8 = 256 := by norm_num
      rw [hflat, chunksExact_cons_block _ _ (length_toBitsLe b 8), List.map_cons, hrest,
        byteFromBits_eq, fromBitsLe_toBitsLe, h28, Nat.mod_eq_of_lt hb]

/-! ### Round trip of the message codec -/

theorem roundtrip_core (p capacity fuel : Nat) (message : List Nat)
    (hc : 0 < capacity) (hp : 2 ^ capacity ≤ p)
    (hbytes : ∀ b ∈ message, b < 256) (hfuel : capacity ≤ fuel) :
    encode_message p capacity message
      = some ((chunksOf capacity (message_bits message ++ [true])).map fromBitsLe)
    ∧ decode_message capacity fuel
        ((chunksOf capacity (message_bits message ++ [true])).map fromBitsLe)
      = some (Except.ok message) := by
  refine ⟨encode_message_eq p capacity message hc hp, ?_⟩
  have hlne : message_bits message ++ [true] ≠ [] := by simp
  rcases chunksOf_flatten_padded capacity hc _ hlne with ⟨m, hm, hflat⟩
  have hbits :
      (((chunksOf capacity (message_bits message ++ [true])).map fromBitsLe).map
          fun element => toBitsLe element capacity).flatten
        = message_bits message ++ true :: List.replicate m false := by
    rw [List.map_map]
    have hcomp :
        ((fun element => toBitsLe element capacity) ∘ fromBitsLe)
          = fun c => toBitsLe (fromBitsLe c) capacity := rfl
    rw [hcomp, hflat, List.append_assoc, List.singleton_append]
  have hpop : popLoop fuel (message_bits message ++ true :: List.replicate m false)
      = some (message_bits message) :=
    popLoop_append_terminator m fuel (message_bits message) (by omega)
  simp only [decode_message]
  rw [hbits, hpop]
  have hlen0 : (message_bits message).length % 8 = 0 := by
    rw [length_message_bits]
    exact Nat.mul_mod_right 8 _
  simp [hlen0, bytes_of_message_bits message hbytes]

/-! ### Stream cipher lemmas -/

theorem zipEq_eq_zip {α β : Type} :
    ∀ (as : List α) (bs : List β), as.length = bs.length → zipEq as bs = some (as.zip bs) := by
  intro as
  induction as with
  | nil =>
      intro bs h
      cases bs with
      | nil => rfl
      | cons b bs => simp at h
  | cons a as ih =>
      intro bs h
      cases bs with
      | nil => simp at h
      | cons b bs => simp [zipEq, ih bs (by simpa using h)]

theorem map_sub_zip_map_add_zip {F : Type} [AddCommGroup F] :
    ∀ (m ks : List F), m.length = ks.length →
      ((((m.zip ks).map fun pr => pr.1 + pr.2).zip ks).map fun pr => pr.1 - pr.2) = m := by
  intro m
  induction m with
  | nil =>
      intro ks h
      cases ks with
      | nil => rfl
      | cons k kt => simp at h
  | cons a t ih =>
      intro ks h
      cases ks with
      | nil => simp at h
      | cons k kt => simp [ih kt (by simpa using h)]

/-! ### Claim theorems -/

/-- C1: for every byte string, including the empty one, the message codec
round-trips: `encode_message` succeeds and `decode_message` applied to its
output returns `Ok` of the original bytes, for any `fuel` bound of at least
`capacity` loop iterations (the loop pops at most `capacity - 1` padding
zeros plus the terminator). -/
theorem claim_C1_encode_decode_roundtrip (p capacity fuel : Nat) (message : List Nat)
    (hc : 0 < capacity) (hp : 2 ^ capacity ≤ p)
    (hbytes : ∀ b ∈ message, b < 256) (hfuel : capacity ≤ fuel) :
    ∃ encoded, encode_message p capacity message = some encoded ∧
      decode_message capacity fuel encoded = some (Except.ok message) :=
  ⟨_, (roundtrip_core p capacity fuel message hc hp hbytes hfuel).1,
    (roundtrip_core p capacity fuel message hc hp hbytes hfuel).2⟩

theorem claim_C1_witness :
    0 < 10 ∧ 2 ^ 10 ≤ 1024 ∧ (∀ b ∈ [104, 105], b < 256) ∧ 10 ≤ 100 ∧
    ∃ encoded, encode_message 1024 10 [104, 105] = some encoded ∧
      decode_message 10 100 encoded = some (Except.ok [104, 105]) :=
  ⟨by decide, by decide, by decide, by decide,
    claim_C1_encode_decode_roundtrip 1024 10 100 [104, 105] (by decide) (by decide)
      (by decide) (by decide)⟩

/-- C8: encoding never panics: every chunk has at most `capacity` bits, so
its value is below `2 ^ capacity ≤ p` and `from_repr` (hence the `unwrap`)
succeeds, for every input byte string — in fact for every list of naturals. -/
theorem claim_C8_encode_total (p capacity : Nat) (message : List Nat)
    (hc : 0 < capacity) (hp : 2 ^ capacity ≤ p) :
    ∃ encoded, encode_message p capacity message = some encoded :=
  ⟨_, encode_message_eq p capacity message hc hp⟩

theorem claim_C8_witness :
    0 < 4 ∧ 2 ^ 4 ≤ 16 ∧ ∃ encoded, encode_message 16 4 [300, 5] = some encoded :=
  ⟨by decide, by decide, claim_C8_encode_total 16 4 [300, 5] (by decide) (by decide)⟩

/-- C9: the empty byte string encodes to exactly one field element, the
value `1` carrying only the terminator bit, and decoding that single
element returns the empty byte string. -/
theorem claim_C9_empty_message (p capacity fuel : Nat)
    (hc : 0 < capacity) (hp : 2 ^ capacity ≤ p) (hfuel : capacity ≤ fuel) :
    encode_message p capacity [] = some [1] ∧
    decode_message capacity fuel [1] = some (Except.ok []) := by
  have h := roundtrip_core p capacity fuel [] hc hp (by simp) hfuel
  have hchunks : chunksOf capacity (message_bits [] ++ [true]) = [[true]] := by
    rw [message_bits]
    simp [chunksOf]
  have hmap : (chunksOf capacity (message_bits [] ++ [true])).map fromBitsLe = [1] := by
    rw [hchunks]
    rfl
  rw [hmap] at h
  exact h

theorem claim_C9_witness :
    0 < 4 ∧ 2 ^ 4 ≤ 16 ∧ 4 ≤ 100 ∧
    (encode_message 16 4 [] = some [1] ∧ decode_message 4 100 [1] = some (Except.ok [])) :=
  ⟨by decide, by decide, by decide,
    claim_C9_empty_message 16 4 100 (by decide) (by decide) (by decide)⟩

/-- C10: the last field element produced by `encode_message` is nonzero:
its bit chunk ends with the terminator `1` bit (the chunk's highest set
bit), so its little-endian value cannot be zero.  This is the invariant the
backward terminator scan of `decode_message` relies on for encoder-produced
input. -/
theorem claim_C10_last_element_nonzero (p capacity : Nat) (message : List Nat)
    (hc : 0 < capacity) (hp : 2 ^ capacity ≤ p) :
    ∃ encoded, encode_message p capacity message = some encoded ∧
      ∀ x, encoded.getLast? = some x → x ≠ 0 := by
  refine ⟨_, encode_message_eq p capacity message hc hp, ?_⟩
  intro x hx
  have hlastl : (message_bits message ++ [true]).getLast? = some true :=
    List.getLast?_concat _
  rcases chunksOf_getLast_true capacity hc _ hlastl with ⟨c, hc1, hc2⟩
  rw [List.getLast?_map, hc1, Option.map_some'] at hx
  have hxc : x = fromBitsLe c := (Option.some.injEq _ _).mp hx.symm
  rw [hxc]
  exact fromBitsLe_ne_zero c (List.mem_of_getLast?_eq_some hc2)

theorem claim_C10_witness :
    0 < 4 ∧ 2 ^ 4 ≤ 16 ∧
    ∃ encoded, encode_message 16 4 [7] = some encoded ∧
      ∀ x, encoded.getLast? = some x → x ≠ 0 :=
  ⟨by decide, by decide, claim_C10_last_element_nonzero 16 4 [7] (by decide) (by decide)⟩

/-- C3 (evidence for the code bug): on any input whose first-`capacity`-bits
concatenation contains no `1` bit, `decode_message` does not return the
typed error the spec requires — its pop loop never terminates, modelled as
`none` for every fuel bound.  The source has no `MalformedCiphertext`
branch at all. -/
theorem claim_C3_no_terminator_diverges (capacity fuel : Nat) (elements : List Nat)
    (h : true ∉ ((elements.map fun element => toBitsLe element capacity).flatten)) :
    decode_message capacity fuel elements = none := by
  simp only [decode_message]
  rw [popLoop_no_true fuel _ h]

theorem claim_C3_witness :
    (true ∉ (([0, 0].map fun element => toBitsLe element 4).flatten)) ∧
    decode_message 4 1000 [0, 0] = none :=
  ⟨by decide, claim_C3_no_terminator_diverges 4 1000 [0, 0] (by decide)⟩

/-- C4 (evidence for the code bug): `decode_message` does not terminate on
the single all-zero field element, for any capacity and any number of loop
iterations, contradicting the claim that every operation terminates on
every input. -/
theorem claim_C4_decode_nonterminating (capacity fuel : Nat) :
    decode_message capacity fuel [0] = none := by
  have h : true ∉ (([0].map fun element => toBitsLe element capacity).flatten) := by
    simp [toBitsLe_zero, List.mem_replicate]
  simp only [decode_message]
  rw [popLoop_no_true fuel _ h]

/-- C5: the stream cipher round-trips: for every symmetric key and message,
`encrypt` succeeds (keystream and message lengths agree by construction)
and `decrypt` with the same key returns the message, since both squeeze
the identical keystream from `(domain, key)` and field subtraction inverts
field addition. -/
theorem claim_C5_encrypt_decrypt_roundtrip {F : Type} [AddCommGroup F]
    (S : SpongeSpec F) (encryption_domain symmetric_key : F) (message : List F) :
    ∃ ciphertext, encrypt S encryption_domain symmetric_key message = some ciphertext ∧
      decrypt S encryption_domain symmetric_key ciphertext = some message := by
  have hlen : (S.squeezeFn [encryption_domain, symmetric_key] message.length).length
      = message.length := S.length_squeezeFn _ _
  have henc : encrypt S encryption_domain symmetric_key message
      = some ((message.zip (S.squeezeFn [encryption_domain, symmetric_key]
          message.length)).map fun pr => pr.1 + pr.2) := by
    simp only [encrypt, Sponge.with_parameters, Sponge.absorb, Sponge.squeeze,
      List.nil_append]
    rw [zipEq_eq_zip _ _ hlen.symm]
    rfl
  refine ⟨_, henc, ?_⟩
  have hclen : ((message.zip (S.squeezeFn [encryption_domain, symmetric_key]
      message.length)).map fun pr => pr.1 + pr.2).length = message.length := by
    simp [List.length_zip, hlen]
  simp only [decrypt, Sponge.with_parameters, Sponge.absorb, Sponge.squeeze,
    List.nil_append, hclen]
  rw [zipEq_eq_zip _ _ (by rw [hclen, hlen])]
  simp only [Option.map_some']
  exact congrArg some (map_sub_zip_map_add_zip message _ hlen.symm)

/-- C7: the symmetric-key commitment absorbs exactly the commitment domain
tag followed by the key into a fresh sponge, squeezes exactly one element
and returns it; it is thus a pure deterministic function of the key, and
the `[0]` indexing cannot panic. -/
theorem claim_C7_commitment_spec {F : Type} (S : SpongeSpec F)
    (commitment_domain symmetric_key : F) :
    ∃ v, S.squeezeFn [commitment_domain, symmetric_key] 1 = [v] ∧
      generate_symmetric_key_commitment S commitment_domain symmetric_key = some v := by
  rcases List.length_eq_one.mp (S.length_squeezeFn [commitment_domain, symmetric_key] 1)
    with ⟨v, hv⟩
  refine ⟨v, hv, ?_⟩
  simp only [generate_symmetric_key_commitment, Sponge.with_parameters, Sponge.absorb,
    Sponge.squeeze, List.nil_append]
  rw [hv]
  rfl

/-- C2: key agreement always succeeds and agrees when keys match: for every
private key and every exchange randomness, decoding the randomizer
x-coordinate recovers the subgroup point `generator ^ r` (the point-codec
contract of §4.1), and `x((g^r)^sk) = x((g^sk)^r)` by commutativity of
scalar exponentiation, so `generate_symmetric_key` returns `some` of the
sender's symmetric key. -/
theorem claim_C2_key_agreement {G F : Type} [CommGroup G] (C : CurveModel G F)
    (generator : G) (private_key randomness : Nat)
    (hgen : C.inSubgroup generator = true)
    (hpow : ∀ (P : G) (n : Nat), C.inSubgroup P = true → C.inSubgroup (P ^ n) = true)
    (hrecover : ∀ P : G, C.inSubgroup P = true →
      recover_randomizer C (C.xCoord P) = some P) :
    generate_symmetric_key C private_key
        (generate_asymmetric_key C generator
          (generate_public_key generator private_key) randomness).2.1
      = some ((generate_asymmetric_key C generator
          (generate_public_key generator private_key) randomness).2.2) := by
  have hsub : C.inSubgroup (generator ^ randomness) = true := hpow generator randomness hgen
  show generate_symmetric_key C private_key (C.xCoord (generator ^ randomness))
      = some (C.xCoord ((generator ^ private_key) ^ randomness))
  rw [generate_symmetric_key, hrecover _ hsub, Option.map_some', pow_right_comm]

theorem claim_C2_witness :
    witnessCurve.inSubgroup (Multiplicative.ofAdd (1 : ZMod 5)) = true ∧
    generate_symmetric_key witnessCurve 2
        (generate_asymmetric_key witnessCurve (Multiplicative.ofAdd (1 : ZMod 5))
          (generate_public_key (Multiplicative.ofAdd (1 : ZMod 5)) 2) 3).2.1
      = some ((generate_asymmetric_key witnessCurve (Multiplicative.ofAdd (1 : ZMod 5))
          (generate_public_key (Multiplicative.ofAdd (1 : ZMod 5)) 2) 3).2.2) :=
  ⟨rfl, claim_C2_key_agreement witnessCurve (Multiplicative.ofAdd (1 : ZMod 5)) 2 3 rfl
    (fun _ _ _ => rfl) (fun _ _ => rfl)⟩

/-- C6: x-coordinate decoding tries the `true` sign convention first and
accepts only an existing, subgroup-validated point; otherwise it tries the
`false` convention under the same condition; if neither attempt succeeds,
`read_le` returns the typed error and `generate_symmetric_key` returns
`none` — both are total functions, so no panic is possible. -/
theorem claim_C6_point_decoding {G F : Type} [Monoid G] (C : CurveModel G F)
    (private_key : Nat) (x : F) :
    (∀ e, C.fromX x true = some e → C.inSubgroup e = true →
        read_le C x = Except.ok e ∧
        generate_symmetric_key C private_key x = some (C.xCoord (e ^ private_key)))
    ∧ ((∀ e, C.fromX x true = some e → C.inSubgroup e = false) →
        ∀ e, C.fromX x false = some e → C.inSubgroup e = true →
          read_le C x = Except.ok e ∧
          generate_symmetric_key C private_key x = some (C.xCoord (e ^ private_key)))
    ∧ ((∀ s e, C.fromX x s = some e → C.inSubgroup e = false) →
        read_le C x = Except.error EncryptionError.message ∧
        generate_symmetric_key C private_key x = none) := by
  refine ⟨?_, ?_, ?_⟩
  · intro e h1 h2
    have hrec : recover_randomizer C x = some e := by
      simp [recover_randomizer, h1, h2]
    rw [read_le, generate_symmetric_key, hrec]
    exact ⟨rfl, rfl⟩
  · intro hfailA e h1 h2
    have hrec : recover_randomizer C x = some e := by
      rcases hft : C.fromX x true with _ | eA
      · simp [recover_randomizer, hft, h1, h2]
      · simp [recover_randomizer, hft, hfailA eA hft, h1, h2]
    rw [read_le, generate_symmetric_key, hrec]
    exact ⟨rfl, rfl⟩
  · intro hfail
    have hrec : recover_randomizer C x = none := by
      rcases hft : C.fromX x true with _ | eA
      · rcases hff : C.fromX x false with _ | eB
        · simp [recover_randomizer, hft, hff]
        · simp [recover_randomizer, hft, hff, hfail false eB hff]
      · rcases hff : C.fromX x false with _ | eB
        · simp [recover_randomizer, hft, hff, hfail true eA hft]
        · simp [recover_randomizer, hft, hff, hfail true eA hft, hfail false eB hff]
    rw [read_le, generate_symmetric_key, hrec]
    exact ⟨rfl, rfl⟩

theorem claim_C6_witness :
    (read_le witnessCurve (0 : ZMod 5) = Except.ok (Multiplicative.ofAdd (0 : ZMod 5)) ∧
      generate_symmetric_key witnessCurve 2 (0 : ZMod 5)
        = some (witnessCurve.xCoord (Multiplicative.ofAdd (0 : ZMod 5) ^ 2))) ∧
    (read_le witnessCurveFail (0 : ZMod 5) = Except.error EncryptionError.message ∧
      generate_symmetric_key witnessCurveFail 2 (0 : ZMod 5) = none) :=
  ⟨(claim_C6_point_decoding witnessCurve 2 0).1 (Multiplicative.ofAdd 0) rfl rfl,
    (claim_C6_point_decoding witnessCurveFail 2 0).2.2
      fun _ e h => Option.noConfusion h⟩

end ECIES
